import Mathlib

/-!
Shallow embedding of `src/mdbook-spec/src/std_links.rs` (the mdbook-spec
standard-library link preprocessor) and proofs about its behaviour.

The source is regex-driven. Regexes are embedded through a small
backtracking pattern engine whose results are returned in the regex
crate's leftmost-first preference order: an alternation prefers its left
branch, a greedy repetition prefers longer matches, and the overall match
taken by `find` / `captures_iter` / `replace_all` is the first result.
`Regex::shortest_match` is the minimum end offset over all results.
Strings are embedded as `List Char`; on the ASCII data involved this
agrees with Rust's byte-wise view of `&str`.
-/

/-- Capture list of one regex match: pairs of group number and captured text. -/
abbrev Caps := List (Nat × List Char)

/-- A backtracking pattern: maps the input to every possible match result,
each a pair of remaining input and captures, in leftmost-first preference
order. -/
abbrev Pat := List Char → List (List Char × Caps)

/-- Literal character sequence inside a regex. -/
def pLit (s : List Char) : Pat := fun cs =>
  if s.isPrefixOf cs then [(cs.drop s.length, [])] else []

/-- Single character drawn from a character class. -/
def pCls (f : Char → Bool) : Pat := fun cs =>
  match cs with
  | [] => []
  | c :: rest => if f c then [(rest, [])] else []

/-- Concatenation of two pattern pieces, preserving preference order (the
left piece's preferences dominate, as in a backtracking regex engine). -/
def pCat (a b : Pat) : Pat := fun cs =>
  (a cs).flatMap fun r => (b r.1).map fun r2 => (r2.1, r.2 ++ r2.2)

/-- Alternation: the left branch is preferred, as in the regex crate. -/
def pAlt (a b : Pat) : Pat := fun cs => a cs ++ b cs

/-- Greedy option `(?: ... )?`: matching is preferred over skipping. -/
def pOpt (a : Pat) : Pat := fun cs => a cs ++ [(cs, [])]

/-- Greedy one-or-more repetition of a character class: every nonempty
prefix of the maximal run, longest first. -/
def pPlusCls (f : Char → Bool) : Pat := fun cs =>
  let n := (cs.takeWhile f).length
  (List.range n).map fun i => (cs.drop (n - i), [])

/-- Greedy zero-or-more repetition of a character class: every prefix of
the maximal run, longest first. -/
def pStarCls (f : Char → Bool) : Pat := fun cs =>
  let n := (cs.takeWhile f).length
  (List.range (n + 1)).map fun i => (cs.drop (n - i), [])

/-- Capture group `n`: records the text the inner pattern consumed. -/
def pGroup (n : Nat) (a : Pat) : Pat := fun cs =>
  (a cs).map fun r => (r.1, (n, cs.take (cs.length - r.1.length)) :: r.2)

/-- Backtick character (written by code, to satisfy source-file hygiene). -/
def bq : Char := '\x60'

/-- Character class `[A-Za-z0-9_!:<>(){}\[\]]` (with curly braces) of the
path-segment part of `STD_LINK`. -/
def stdPathChar (c : Char) : Bool :=
  c.isAlphanum || c == '_' || c == '!' || c == ':' || c == '<' || c == '>' ||
    c == '\x7b' || c == '\x7d' || c == '(' || c == ')' || c == '[' || c == ']'

/-- The STD_LINK fragment of the source:
an optional lowercase crate qualifier ending in an at-sign, one of the five
root namespaces, and an optional double-colon path of `stdPathChar`s. -/
def stdLinkPat : Pat :=
  pCat (pOpt (pCat (pPlusCls Char.isLower) (pLit [ '@' ])))
    (pCat
      (pAlt (pLit ("std".toList))
        (pAlt (pLit ("core".toList))
          (pAlt (pLit ("alloc".toList))
            (pAlt (pLit ("proc_macro".toList)) (pLit ("test".toList))))))
      (pOpt (pCat (pLit ([ ':', ':' ])) (pPlusCls stdPathChar))))

/-- The STD_LINK_RE regex: first branch is a bracketed backticked code span
(group 1) followed by a parenthesized STD_LINK destination (group 2);
second branch is a bracketed backticked STD_LINK shorthand (group 3). -/
def STD_LINK_RE : Pat :=
  pAlt
    (pCat
      (pGroup 1
        (pCat (pLit ([ '[', bq ])) (pCat (pPlusCls (fun c => c != bq)) (pLit ([ bq, ']' ])))))
      (pCat (pLit ([ '(' ])) (pCat (pGroup 2 stdLinkPat) (pLit ([ ')' ])))))
    (pGroup 3 (pCat (pLit ([ '[', bq ])) (pCat stdLinkPat (pLit ([ bq, ']' ])))))

/-- The LINK_DEF_RE regex without its multiline start-of-line anchor (the
anchor is handled by the scanner `linkDefsF`): a bracketed label of
non-bracket characters (group 1), a colon, spaces, and the rest of the
line (group 2). -/
def LINK_DEF_RE : Pat :=
  pCat (pGroup 1 (pCat (pLit ([ '[' ])) (pCat (pPlusCls (fun c => c != ']')) (pLit ([ ']' ])))))
    (pCat (pLit ([ ':' ]))
      (pCat (pStarCls (fun c => c == ' ')) (pGroup 2 (pStarCls (fun c => c != '\n')))))

/-- The DOC_URL regex: anchored literal doc-site prefix (whose two
unescaped dots are the any-character class) followed by one of the named
channels or a dotted numeric version. -/
def DOC_URL : Pat :=
  pCat (pLit ("https://doc".toList))
    (pCat (pCls (fun c => c != '\n'))
      (pCat (pLit ("rust-lang".toList))
        (pCat (pCls (fun c => c != '\n'))
          (pCat (pLit ("org/".toList))
            (pAlt (pLit ("nightly".toList))
              (pAlt (pLit ("beta".toList))
                (pAlt (pLit ("stable".toList))
                  (pAlt (pLit ("dev".toList))
                    (pCat (pLit ([ '1', '.' ]))
                      (pCat (pPlusCls Char.isDigit)
                        (pCat (pLit ([ '.' ])) (pPlusCls Char.isDigit))))))))))))

/-- End offset of `Regex::shortest_match` for an anchored pattern: the
smallest end position over every way the pattern can match at the start
of the input. -/
def shortestMatchEnd (p : Pat) (cs : List Char) : Option Nat :=
  ((p cs).map (fun r => cs.length - r.1.length)).min?

/-- One segment of the text as `replace_all` walks it: an untouched
character, or one matched occurrence of `STD_LINK_RE` with its captures. -/
inductive Seg where
  | lit (c : Char)
  | rew (whole : List Char) (caps : Caps)
deriving DecidableEq

/-- Fueled scanner implementing the regex crate's iteration of successive
non-overlapping leftmost-first matches of `STD_LINK_RE`, shared by
`captures_iter` and `replace_all`: at each position, take the preferred
match if there is one and continue after it, otherwise step over one
character. Every match consumes at least one character, so fuel one more
than the input length (supplied by `stdScan`) is always sufficient. -/
def stdScanF : Nat → List Char → List Seg
  | 0, _ => []
  | _ + 1, [] => []
  | fuel + 1, c :: cs =>
    match (STD_LINK_RE (c :: cs)).head? with
    | some r =>
      Seg.rew ((c :: cs).take ((c :: cs).length - r.1.length)) r.2 :: stdScanF fuel r.1
    | none => Seg.lit c :: stdScanF fuel cs

/-- Scanner for `STD_LINK_RE` with sufficient fuel. -/
def stdScan (cs : List Char) : List Seg := stdScanF (cs.length + 1) cs

/-- Fueled scanner for the `captures_iter` of LINK_DEF_RE: the multiline
start-of-line anchor means a match may begin only at the start of the
input or right after a newline, tracked by `bol`. The text a match
consumes never ends with a newline (its final pieces match a colon,
spaces, or non-newline characters), so scanning resumes with `bol`
false. -/
def linkDefsF : Nat → Bool → List Char → List Caps
  | 0, _, _ => []
  | _ + 1, _, [] => []
  | fuel + 1, bol, c :: cs =>
    if bol then
      match (LINK_DEF_RE (c :: cs)).head? with
      | some r => r.2 :: linkDefsF fuel false r.1
      | none => linkDefsF fuel (c == '\n') cs
    else linkDefsF fuel (c == '\n') cs

/-- All capture lists of LINK_DEF_RE matches over the content. -/
def linkDefs (cs : List Char) : List Caps := linkDefsF (cs.length + 1) true cs

/-- Labels of the link definitions the author wrote (`existing_labels` in
`collect_markdown_links`): capture group 1 of each LINK_DEF_RE match. -/
def existingLabels (cs : List Char) : List (List Char) :=
  (linkDefs cs).filterMap (fun caps => caps.lookup 1)

/-- A scanned reference: display text and optional explicit destination
(`(&str, Option<&str>)` in the source). -/
abbrev Ref := List Char × Option (List Char)

/-- The reference extracted from one `STD_LINK_RE` match, as in the
`captures_iter` closure of `collect_markdown_links`: group 3 alone when
the shorthand branch matched, otherwise group 1 with group 2 as the
destination. -/
def refOfCaps (caps : Caps) : Ref :=
  match caps.lookup 3 with
  | some noDest => (noDest, none)
  | none => ((caps.lookup 1).getD [], some ((caps.lookup 2).getD []))

/-- All raw references of the `STD_LINK_RE` capture iteration, in match
order. -/
def collectLinksRaw (cs : List Char) : List Ref :=
  (stdScan cs).filterMap fun s =>
    match s with
    | Seg.rew _ caps => some (refOfCaps caps)
    | Seg.lit _ => none

/-- Byte-lexicographic order on strings, the `Ord` instance Rust uses for
`&str` (UTF-8 byte order equals scalar-value order). -/
def strLe : List Char → List Char → Bool
  | [], _ => true
  | _ :: _, [] => false
  | a :: as, b :: bs => if a < b then true else if b < a then false else strLe as bs

/-- Rust `Ord` for `Option<&str>`: `None` sorts before `Some`. -/
def destLe : Option (List Char) → Option (List Char) → Bool
  | none, _ => true
  | some _, none => false
  | some a, some b => strLe a b

/-- Rust `Ord` for the pair `(&str, Option<&str>)`: lexicographic. -/
def refLe (x y : Ref) : Bool :=
  if x.1 = y.1 then destLe x.2 y.2 else strLe x.1 y.1

/-- Strict version of `refLe`, used to state sortedness plus distinctness
of the deduplicated reference list. -/
def refLt (x y : Ref) : Prop := refLe x y = true ∧ x ≠ y

/-- Rust `Vec::dedup`: remove consecutive repeated elements. -/
def dedupConsec : List Ref → List Ref
  | [] => []
  | [a] => [a]
  | a :: b :: t => if a = b then dedupConsec (b :: t) else a :: dedupConsec (b :: t)

/-- The label the `retain` closure of `collect_markdown_links` checks
against existing definitions: the destination wrapped in brackets and
backticks when present, else the display text itself. -/
def canonicalLabel (r : Ref) : List Char :=
  match r.2 with
  | some d => '[' :: bq :: (d ++ [ bq, ']' ])
  | none => r.1

/-- Insertion of an element into a list sorted by `refLe`. -/
def insertLe (x : Ref) : List Ref → List Ref
  | [] => [x]
  | y :: t => if refLe x y then x :: y :: t else y :: insertLe x t

/-- The `links.sort()` call: Rust uses a stable merge sort, but `refLe` is
total, transitive and antisymmetric (proved below), so any algorithm
returning a `refLe`-sorted permutation returns the same list; insertion
sort is used because it evaluates by kernel reduction. -/
def sortRefs : List Ref → List Ref
  | [] => []
  | x :: t => insertLe x (sortRefs t)

/-- Embedding of `collect_markdown_links`: scan all matches, return early
when none, sort, dedup, and drop references whose label the author
already defined. -/
def collect_markdown_links (content : List Char) : List Ref :=
  let links := collectLinksRaw content
  if links.isEmpty then [] else
    (dedupConsec (sortRefs links)).filter
      (fun r => decide (canonicalLabel r ∉ existingLabels content))

/-- The chapter data `std_links` uses: name and source path (diagnostics
only), the components of `chapter.path`, and the content. -/
structure Chapter where
  name : String
  sourcePath : String
  path : List String
  content : List Char

/-- Fatal conditions (the `process::exit(1)` sites of the source), carrying
the data the corresponding diagnostic prints. -/
inductive Err where
  | countMismatch (expected found : Nat) (chapterName sourcePath : String)
  | badUrl (pattern : List Char) (url : List Char)
deriving DecidableEq

/-- Literal text of the DOC_URL regex, shown in the bad-URL diagnostic. -/
def docUrlPatternStr : List Char :=
  ("^https://doc.rust-lang.org/(?:nightly|beta|stable|dev|1\\.[0-9]+\\.[0-9]+)".toList)

/-- Rust slice `join`: interleave the separator between the pieces. -/
def joinSep (sep : List Char) : List (List Char) → List Char
  | [] => []
  | [x] => x
  | x :: y :: t => x ++ sep ++ joinSep sep (y :: t)

/-- Embedding of `relative_url`. The value of the `SPEC_RELATIVE`
environment variable is passed explicitly (`none` when unset), and
`chapter.path.components().count()` is the length of the chapter's path
component list. -/
def relative_url (specRelative : Option String) (url : List Char) (chapter : Chapter) :
    Except Err (List Char) :=
  if specRelative ≠ some ("0") then
    match shortestMatchEnd DOC_URL url with
    | none => Except.error (Err.badUrl docUrlPatternStr url)
    | some urlStart =>
      let urlPath := url.drop urlStart
      let numDots := chapter.path.length
      let dots := joinSep ([ '/' ]) (List.replicate numDots ([ '.', '.' ]))
      Except.ok (dots ++ urlPath)
  else
    Except.ok url

/-- The replacement closure passed to `replace_all` in `std_links`: when
group 2 matched, group 1 followed by the destination in square brackets;
otherwise the whole match unchanged. -/
def stdReplacement (whole : List Char) (caps : Caps) : List Char :=
  match caps.lookup 2 with
  | some dest => (caps.lookup 1).getD [] ++ ('[' :: (dest ++ [ ']' ]))
  | none => whole

/-- Input text of a segment. -/
def segIn : Seg → List Char
  | Seg.lit c => [c]
  | Seg.rew w _ => w

/-- Output text of a segment under the replacement closure. -/
def segOut : Seg → List Char
  | Seg.lit c => [c]
  | Seg.rew w caps => stdReplacement w caps

/-- Embedding of the `replace_all` call of `std_links`: unmatched text is
copied verbatim, each match is replaced by the closure's output. -/
def replaceAllStd (cs : List Char) : List Char := ((stdScan cs).map segOut).flatten

/-- One appended link-definition line, as written by the loop at the bottom
of `std_links`: the destination in plain brackets when present, else the
display text as scanned. -/
def defLine (r : Ref) (url : List Char) : List Char :=
  match r.2 with
  | some dest => '[' :: (dest ++ ("]: ".toList) ++ url ++ [ '\n' ])
  | none => r.1 ++ (": ".toList) ++ url ++ [ '\n' ]

/-- The appended definitions block: each reference's URL is relativized and
written as one line; a relativization failure aborts the run just as
`relative_url` exits the process. -/
def buildDefs (specRelative : Option String) (chapter : Chapter) :
    List (Ref × List Char) → Except Err (List Char)
  | [] => Except.ok []
  | (r, url) :: rest =>
    match relative_url specRelative url chapter with
    | Except.error e => Except.error e
    | Except.ok u =>
      match buildDefs specRelative chapter rest with
      | Except.error e => Except.error e
      | Except.ok tail => Except.ok (defLine r u ++ tail)

/-- Embedding of `std_links`. The resolver (the rustdoc run plus URL
extraction from the generated index) is a function from the submitted
references to the extracted URL list; fatal exits become `Except.error`. -/
def std_links (specRelative : Option String) (resolver : List Ref → List (List Char))
    (chapter : Chapter) : Except Err (List Char) :=
  let links := collect_markdown_links chapter.content
  if links.isEmpty then Except.ok chapter.content
  else
    let urls := resolver links
    if urls.length ≠ links.length then
      Except.error (Err.countMismatch links.length urls.length chapter.name chapter.sourcePath)
    else
      match buildDefs specRelative chapter (links.zip urls) with
      | Except.error e => Except.error e
      | Except.ok defs => Except.ok (replaceAllStd chapter.content ++ ('\n' :: defs))

/-- Header of the source file `run_rustdoc` synthesizes: it enables strict
broken-intra-doc-link diagnostics and suppresses the
redundant-explicit-links lint. -/
def rustdocHeader : List Char :=
  ("#![deny(rustdoc::broken_intra_doc_links)]\n#![allow(rustdoc::redundant_explicit_links)]\n".toList)

/-- One doc-comment bullet line of the synthesized file: the display text,
the destination in trailing parentheses when present, and a newline. -/
def bulletLine (r : Ref) : List Char :=
  ("//! - ".toList) ++ r.1 ++
    (match r.2 with
     | some dest => '(' :: (dest ++ [ ')' ])
     | none => []) ++ [ '\n' ]

/-- Trailing extern-crate declarations of the synthesized file, with the
extra newline the final `writeln!` appends. -/
def rustdocFooter : List Char :=
  ("extern crate alloc;\nextern crate proc_macro;\nextern crate test;\n\n".toList)

/-- The source text `run_rustdoc` writes for the resolver, built by the
same left-to-right appends as the source performs. -/
def run_rustdoc_src (links : List Ref) : List Char :=
  (links.foldl (fun acc r => acc ++ bulletLine r) rustdocHeader) ++ rustdocFooter

/-- Membership of the result `head?` returns. -/
theorem headMem {α : Type} {l : List α} {a : α} (h : l.head? = some a) : a ∈ l := by
  cases l with
  | nil => simp at h
  | cons x t =>
    simp only [List.head?_cons, Option.some.injEq] at h
    subst h
    exact List.mem_cons_self _ _

/-- Patterns whose results only consume from the front of the input: every
remaining input is a suffix of the input. -/
def SuffixPat (p : Pat) : Prop := ∀ cs r, r ∈ p cs → r.1 <:+ cs

/-- Patterns all of whose results consume at least one character. -/
def ConsumingPat (p : Pat) : Prop := ∀ cs r, r ∈ p cs → r.1.length < cs.length

theorem suffixPat_pLit (s : List Char) : SuffixPat (pLit s) := by
  intro cs r hr
  simp only [pLit] at hr
  split at hr
  · simp only [List.mem_singleton] at hr
    subst hr
    exact List.drop_suffix _ _
  · simp at hr

theorem consumingPat_pLit {s : List Char} (hs : s ≠ []) : ConsumingPat (pLit s) := by
  intro cs r hr
  simp only [pLit] at hr
  split at hr
  next h =>
    simp only [List.mem_singleton] at hr
    subst hr
    have hp : s <+: cs := List.isPrefixOf_iff_prefix.mp h
    have h1 : s.length ≤ cs.length := hp.length_le
    have h2 : 0 < s.length := List.length_pos.mpr hs
    simp only [List.length_drop]
    omega
  next => simp at hr

theorem suffixPat_pCls (f : Char → Bool) : SuffixPat (pCls f) := by
  intro cs r hr
  cases cs with
  | nil => simp [pCls] at hr
  | cons c t =>
    simp only [pCls] at hr
    split at hr
    · simp only [List.mem_singleton] at hr
      subst hr
      exact List.suffix_cons c t
    · simp at hr

theorem consumingPat_pCls (f : Char → Bool) : ConsumingPat (pCls f) := by
  intro cs r hr
  cases cs with
  | nil => simp [pCls] at hr
  | cons c t =>
    simp only [pCls] at hr
    split at hr
    · simp only [List.mem_singleton] at hr
      subst hr
      simp
    · simp at hr

theorem suffixPat_pPlusCls (f : Char → Bool) : SuffixPat (pPlusCls f) := by
  intro cs r hr
  simp only [pPlusCls, List.mem_map, List.mem_range] at hr
  obtain ⟨i, _, rfl⟩ := hr
  exact List.drop_suffix _ _

theorem consumingPat_pPlusCls (f : Char → Bool) : ConsumingPat (pPlusCls f) := by
  intro cs r hr
  simp only [pPlusCls, List.mem_map, List.mem_range] at hr
  obtain ⟨i, hi, rfl⟩ := hr
  have hn : (cs.takeWhile f).length ≤ cs.length := (List.takeWhile_prefix f).length_le
  simp only [List.length_drop]
  omega

theorem suffixPat_pStarCls (f : Char → Bool) : SuffixPat (pStarCls f) := by
  intro cs r hr
  simp only [pStarCls, List.mem_map, List.mem_range] at hr
  obtain ⟨i, _, rfl⟩ := hr
  exact List.drop_suffix _ _

theorem suffixPat_pCat {a b : Pat} (ha : SuffixPat a) (hb : SuffixPat b) :
    SuffixPat (pCat a b) := by
  intro cs r hr
  simp only [pCat, List.mem_flatMap, List.mem_map] at hr
  obtain ⟨r1, h1, r2, h2, rfl⟩ := hr
  exact (hb _ r2 h2).trans (ha _ r1 h1)

theorem consumingPat_pCat_left {a b : Pat} (ha : ConsumingPat a) (hb : SuffixPat b) :
    ConsumingPat (pCat a b) := by
  intro cs r hr
  simp only [pCat, List.mem_flatMap, List.mem_map] at hr
  obtain ⟨r1, h1, r2, h2, rfl⟩ := hr
  exact Nat.lt_of_le_of_lt (hb _ r2 h2).length_le (ha _ r1 h1)

theorem consumingPat_pCat_right {a b : Pat} (ha : SuffixPat a) (hb : ConsumingPat b) :
    ConsumingPat (pCat a b) := by
  intro cs r hr
  simp only [pCat, List.mem_flatMap, List.mem_map] at hr
  obtain ⟨r1, h1, r2, h2, rfl⟩ := hr
  exact Nat.lt_of_lt_of_le (hb _ r2 h2) (ha _ r1 h1).length_le

theorem suffixPat_pAlt {a b : Pat} (ha : SuffixPat a) (hb : SuffixPat b) :
    SuffixPat (pAlt a b) := by
  intro cs r hr
  rcases List.mem_append.mp hr with h | h
  · exact ha _ _ h
  · exact hb _ _ h

theorem consumingPat_pAlt {a b : Pat} (ha : ConsumingPat a) (hb : ConsumingPat b) :
    ConsumingPat (pAlt a b) := by
  intro cs r hr
  rcases List.mem_append.mp hr with h | h
  · exact ha _ _ h
  · exact hb _ _ h

theorem suffixPat_pOpt {a : Pat} (ha : SuffixPat a) : SuffixPat (pOpt a) := by
  intro cs r hr
  rcases List.mem_append.mp hr with h | h
  · exact ha _ _ h
  · simp only [List.mem_singleton] at h
    subst h
    exact List.suffix_refl cs

theorem suffixPat_pGroup {a : Pat} {n : Nat} (ha : SuffixPat a) : SuffixPat (pGroup n a) := by
  intro cs r hr
  simp only [pGroup, List.mem_map] at hr
  obtain ⟨r1, h1, rfl⟩ := hr
  exact ha _ r1 h1

theorem consumingPat_pGroup {a : Pat} {n : Nat} (ha : ConsumingPat a) :
    ConsumingPat (pGroup n a) := by
  intro cs r hr
  simp only [pGroup, List.mem_map] at hr
  obtain ⟨r1, h1, rfl⟩ := hr
  exact ha _ r1 h1

theorem suffixPat_stdLinkPat : SuffixPat stdLinkPat :=
  suffixPat_pCat (suffixPat_pOpt (suffixPat_pCat (suffixPat_pPlusCls _) (suffixPat_pLit _)))
    (suffixPat_pCat
      (suffixPat_pAlt (suffixPat_pLit _)
        (suffixPat_pAlt (suffixPat_pLit _)
          (suffixPat_pAlt (suffixPat_pLit _)
            (suffixPat_pAlt (suffixPat_pLit _) (suffixPat_pLit _)))))
      (suffixPat_pOpt (suffixPat_pCat (suffixPat_pLit _) (suffixPat_pPlusCls _))))

theorem suffixPat_STD_LINK_RE : SuffixPat STD_LINK_RE :=
  suffixPat_pAlt
    (suffixPat_pCat
      (suffixPat_pGroup
        (suffixPat_pCat (suffixPat_pLit _)
          (suffixPat_pCat (suffixPat_pPlusCls _) (suffixPat_pLit _))))
      (suffixPat_pCat (suffixPat_pLit _)
        (suffixPat_pCat (suffixPat_pGroup suffixPat_stdLinkPat) (suffixPat_pLit _))))
    (suffixPat_pGroup
      (suffixPat_pCat (suffixPat_pLit _)
        (suffixPat_pCat suffixPat_stdLinkPat (suffixPat_pLit _))))

theorem consumingPat_STD_LINK_RE : ConsumingPat STD_LINK_RE :=
  consumingPat_pAlt
    (consumingPat_pCat_left
      (consumingPat_pGroup
        (consumingPat_pCat_left (consumingPat_pLit (by decide))
          (suffixPat_pCat (suffixPat_pPlusCls _) (suffixPat_pLit _))))
      (suffixPat_pCat (suffixPat_pLit _)
        (suffixPat_pCat (suffixPat_pGroup suffixPat_stdLinkPat) (suffixPat_pLit _))))
    (consumingPat_pGroup
      (consumingPat_pCat_left (consumingPat_pLit (by decide))
        (suffixPat_pCat suffixPat_stdLinkPat (suffixPat_pLit _))))

theorem suffixPat_LINK_DEF_RE : SuffixPat LINK_DEF_RE :=
  suffixPat_pCat
    (suffixPat_pGroup
      (suffixPat_pCat (suffixPat_pLit _)
        (suffixPat_pCat (suffixPat_pPlusCls _) (suffixPat_pLit _))))
    (suffixPat_pCat (suffixPat_pLit _)
      (suffixPat_pCat (suffixPat_pStarCls _) (suffixPat_pGroup (suffixPat_pStarCls _))))

theorem consumingPat_LINK_DEF_RE : ConsumingPat LINK_DEF_RE :=
  consumingPat_pCat_left
    (consumingPat_pGroup
      (consumingPat_pCat_left (consumingPat_pLit (by decide))
        (suffixPat_pCat (suffixPat_pPlusCls _) (suffixPat_pLit _))))
    (suffixPat_pCat (suffixPat_pLit _)
      (suffixPat_pCat (suffixPat_pStarCls _) (suffixPat_pGroup (suffixPat_pStarCls _))))

/-- Splitting the input at a match: the text before the remaining input,
rejoined with the remaining input, is the input. -/
theorem match_split {p : Pat} (hp : SuffixPat p) {cs : List Char} {r : List Char × Caps}
    (hr : r ∈ p cs) : cs.take (cs.length - r.1.length) ++ r.1 = cs := by
  obtain ⟨t, ht⟩ := hp _ _ hr
  subst ht
  have : (t ++ r.1).length - r.1.length = t.length := by
    simp [List.length_append]
  rw [this, List.take_left]

/-- With sufficient fuel, the scanned segments' input sides rebuild the
input exactly: `replace_all` touches only matched substrings and keeps all
other characters in place and in order. -/
theorem stdScanF_flatten :
    ∀ (fuel : Nat) (cs : List Char), cs.length < fuel →
      ((stdScanF fuel cs).map segIn).flatten = cs := by
  intro fuel
  induction fuel with
  | zero => intro cs h; omega
  | succ n ih =>
    intro cs h
    cases cs with
    | nil => simp [stdScanF]
    | cons c t =>
      rw [stdScanF]
      cases hm : (STD_LINK_RE (c :: t)).head? with
      | none =>
        simp only [List.map_cons, List.flatten_cons, segIn]
        rw [ih t (by simp at h; omega)]
        rfl
      | some r =>
        have hmem := headMem hm
        have hcons : r.1.length < (c :: t).length := consumingPat_STD_LINK_RE _ _ hmem
        simp only [List.map_cons, List.flatten_cons, segIn]
        rw [ih r.1 (by simp at h hcons ⊢; omega)]
        exact match_split suffixPat_STD_LINK_RE hmem

/-- With sufficient fuel, every rewritten segment comes from an actual
preferred match of `STD_LINK_RE`: its text plus some tail is a suffix of
the content on which the regex's first result consumes exactly that text
with those captures. -/
theorem stdScanF_rew :
    ∀ (fuel : Nat) (cs : List Char), cs.length < fuel →
      ∀ w caps, Seg.rew w caps ∈ stdScanF fuel cs →
        ∃ tail, (STD_LINK_RE (w ++ tail)).head? = some (tail, caps) := by
  intro fuel
  induction fuel with
  | zero => intro cs h; omega
  | succ n ih =>
    intro cs h w caps hmem
    cases cs with
    | nil => simp [stdScanF] at hmem
    | cons c t =>
      rw [stdScanF] at hmem
      cases hm : (STD_LINK_RE (c :: t)).head? with
      | none =>
        rw [hm] at hmem
        rcases List.mem_cons.mp hmem with heq | htail
        · exact absurd heq (by simp)
        · exact ih t (by simp at h; omega) w caps htail
      | some r =>
        rw [hm] at hmem
        have hmr := headMem hm
        have hcons : r.1.length < (c :: t).length := consumingPat_STD_LINK_RE _ _ hmr
        rcases List.mem_cons.mp hmem with heq | htail
        · refine ⟨r.1, ?_⟩
          have hsplit := match_split suffixPat_STD_LINK_RE hmr
          have hw : w = (c :: t).take ((c :: t).length - r.1.length) := by
            injection heq
          have hcaps : caps = r.2 := by injection heq
          rw [hw, hcaps, hsplit, hm]
        · exact ih r.1 (by simp at h hcons ⊢; omega) w caps htail

/-- Segment decomposition for the full-fuel scanner. -/
theorem stdScan_flatten (cs : List Char) : ((stdScan cs).map segIn).flatten = cs :=
  stdScanF_flatten _ _ (Nat.lt_succ_self _)

/-- Match provenance for the full-fuel scanner. -/
theorem stdScan_rew (cs : List Char) {w : List Char} {caps : Caps}
    (h : Seg.rew w caps ∈ stdScan cs) :
    ∃ tail, (STD_LINK_RE (w ++ tail)).head? = some (tail, caps) :=
  stdScanF_rew _ _ (Nat.lt_succ_self _) w caps h

theorem strLe_total : ∀ (a b : List Char), strLe a b || strLe b a := by
  intro a
  induction a with
  | nil => intro b; simp [strLe]
  | cons x xs ih =>
    intro b
    cases b with
    | nil => simp [strLe]
    | cons y ys =>
      simp only [strLe]
      rcases lt_trichotomy x y with h | h | h
      · simp [h]
      · subst h
        simp only [lt_irrefl, if_false]
        exact ih ys
      · simp [h, not_lt_of_gt h]

theorem strLe_trans : ∀ (a b c : List Char), strLe a b → strLe b c → strLe a c := by
  intro a
  induction a with
  | nil => intro b c _ _; simp [strLe]
  | cons x xs ih =>
    intro b c hab hbc
    cases b with
    | nil => simp [strLe] at hab
    | cons y ys =>
      cases c with
      | nil => simp [strLe] at hbc
      | cons z zs =>
        simp only [strLe] at hab hbc ⊢
        rcases lt_trichotomy x y with h1 | h1 | h1
        · rcases lt_trichotomy y z with h2 | h2 | h2
          · simp [lt_trans h1 h2]
          · subst h2; simp [h1]
          · simp [h2, not_lt_of_gt h2] at hbc
        · subst h1
          rcases lt_trichotomy x z with h2 | h2 | h2
          · simp [h2]
          · subst h2
            simp only [lt_irrefl, if_false] at hab hbc ⊢
            exact ih _ _ hab hbc
          · simp [h2, not_lt_of_gt h2] at hbc
        · simp [h1, not_lt_of_gt h1] at hab
  
theorem strLe_antisymm : ∀ (a b : List Char), strLe a b → strLe b a → a = b := by
  intro a
  induction a with
  | nil =>
    intro b _ hba
    cases b with
    | nil => rfl
    | cons y ys => simp [strLe] at hba
  | cons x xs ih =>
    intro b hab hba
    cases b with
    | nil => simp [strLe] at hab
    | cons y ys =>
      simp only [strLe] at hab hba
      rcases lt_trichotomy x y with h | h | h
      · simp [h, not_lt_of_gt h] at hba
      · subst h
        simp only [lt_irrefl, if_false] at hab hba
        rw [ih _ hab hba]
      · simp [h, not_lt_of_gt h] at hab

theorem destLe_total : ∀ (a b : Option (List Char)), destLe a b || destLe b a := by
  intro a b
  cases a with
  | none => simp [destLe]
  | some x =>
    cases b with
    | none => simp [destLe]
    | some y => simpa [destLe] using strLe_total x y

theorem destLe_trans :
    ∀ (a b c : Option (List Char)), destLe a b → destLe b c → destLe a c := by
  intro a b c hab hbc
  cases a with
  | none => simp [destLe]
  | some x =>
    cases b with
    | none => simp [destLe] at hab
    | some y =>
      cases c with
      | none => simp [destLe] at hbc
      | some z =>
        simp only [destLe] at hab hbc ⊢
        exact strLe_trans _ _ _ hab hbc

theorem destLe_antisymm :
    ∀ (a b : Option (List Char)), destLe a b → destLe b a → a = b := by
  intro a b hab hba
  cases a with
  | none =>
    cases b with
    | none => rfl
    | some y => simp [destLe] at hba
  | some x =>
    cases b with
    | none => simp [destLe] at hab
    | some y =>
      simp only [destLe] at hab hba
      rw [strLe_antisymm _ _ hab hba]

theorem refLe_total : ∀ (a b : Ref), refLe a b || refLe b a := by
  intro a b
  simp only [refLe]
  by_cases h : a.1 = b.1
  · simp [h, destLe_total]
  · simp [h, Ne.symm h, strLe_total]

theorem refLe_trans : ∀ (a b c : Ref), refLe a b → refLe b c → refLe a c := by
  intro a b c hab hbc
  simp only [refLe] at hab hbc ⊢
  by_cases h1 : a.1 = b.1
  · by_cases h2 : b.1 = c.1
    · simp only [h1, h2, if_pos rfl] at hab hbc ⊢
      exact destLe_trans _ _ _ hab hbc
    · have h3 : a.1 ≠ c.1 := by rw [h1]; exact h2
      simp only [if_neg h2] at hbc
      simp only [if_neg h3]
      rw [h1]
      exact hbc
  · by_cases h2 : b.1 = c.1
    · have h3 : a.1 ≠ c.1 := by rw [← h2]; exact h1
      simp only [if_neg h1] at hab
      simp only [if_neg h3]
      rw [← h2]
      exact hab
    · simp only [if_neg h1] at hab
      simp only [if_neg h2] at hbc
      by_cases h3 : a.1 = c.1
      · exfalso
        apply h1
        rw [h3] at hab ⊢
        exact (strLe_antisymm _ _ hbc hab).symm
      · simp only [if_neg h3]
        exact strLe_trans _ _ _ hab hbc

theorem refLe_antisymm : ∀ (a b : Ref), refLe a b → refLe b a → a = b := by
  intro a b hab hba
  simp only [refLe] at hab hba
  by_cases h : a.1 = b.1
  · simp only [if_pos h, if_pos h.symm] at hab hba
    have h2 := destLe_antisymm _ _ hab hba
    exact Prod.ext h h2
  · simp only [if_neg h, if_neg (Ne.symm h)] at hab hba
    exact absurd (strLe_antisymm _ _ hab hba) h

theorem refLt_trans : ∀ (a b c : Ref), refLt a b → refLt b c → refLt a c := by
  intro a b c ⟨hab, hne1⟩ ⟨hbc, hne2⟩
  refine ⟨refLe_trans _ _ _ hab hbc, ?_⟩
  intro hac
  subst hac
  exact hne1 (refLe_antisymm _ _ hab hbc)

theorem mem_dedupConsec : ∀ (l : List Ref) (x : Ref), x ∈ dedupConsec l ↔ x ∈ l := by
  intro l
  induction l with
  | nil => intro x; simp [dedupConsec]
  | cons a t ih =>
    cases t with
    | nil => intro x; simp [dedupConsec]
    | cons b t2 =>
      intro x
      by_cases hab : a = b
      · simp only [dedupConsec, if_pos hab]
        rw [ih x]
        subst hab
        simp
      · simp only [dedupConsec, if_neg hab]
        simp only [List.mem_cons]
        rw [ih x]
        simp [List.mem_cons]

theorem mem_insertLe :
    ∀ (x : Ref) (l : List Ref) (y : Ref), y ∈ insertLe x l ↔ y = x ∨ y ∈ l := by
  intro x l
  induction l with
  | nil => intro y; simp [insertLe]
  | cons z t ih =>
    intro y
    simp only [insertLe]
    split
    · simp [List.mem_cons]
    · simp only [List.mem_cons, ih y]
      tauto

theorem mem_sortRefs : ∀ (l : List Ref) (x : Ref), x ∈ sortRefs l ↔ x ∈ l := by
  intro l
  induction l with
  | nil => intro x; simp [sortRefs]
  | cons z t ih =>
    intro x
    simp only [sortRefs, mem_insertLe, List.mem_cons, ih x]

theorem pairwise_insertLe :
    ∀ (x : Ref) (l : List Ref), l.Pairwise (fun a b => refLe a b = true) →
      (insertLe x l).Pairwise (fun a b => refLe a b = true) := by
  intro x l
  induction l with
  | nil => intro _; simp [insertLe]
  | cons y t ih =>
    intro hp
    simp only [insertLe]
    split
    next hxy =>
      refine List.Pairwise.cons ?_ hp
      intro z hz
      rcases List.mem_cons.mp hz with h | h
      · subst h; exact hxy
      · exact refLe_trans _ _ _ hxy (List.rel_of_pairwise_cons hp h)
    next hxy =>
      have hyx : refLe y x = true := by
        have := refLe_total x y
        simp only [Bool.or_eq_true] at this
        rcases this with h | h
        · exact absurd h hxy
        · exact h
      refine List.Pairwise.cons ?_ (ih (List.pairwise_cons.mp hp).2)
      intro z hz
      rcases (mem_insertLe x t z).mp hz with h | h
      · subst h; exact hyx
      · exact List.rel_of_pairwise_cons hp h

theorem pairwise_sortRefs :
    ∀ (l : List Ref), (sortRefs l).Pairwise (fun a b => refLe a b = true) := by
  intro l
  induction l with
  | nil => simp [sortRefs]
  | cons x t ih => exact pairwise_insertLe x _ ih

/-- Rust `dedup` on a list sorted by a total antisymmetric `le` yields a
strictly increasing list: sortedness plus global distinctness. -/
theorem pairwise_refLt_dedupConsec :
    ∀ (l : List Ref), l.Pairwise (fun x y => refLe x y = true) →
      (dedupConsec l).Pairwise refLt := by
  intro l
  induction l with
  | nil => intro _; simp [dedupConsec]
  | cons a t ih =>
    cases t with
    | nil => intro _; simp [dedupConsec]
    | cons b t2 =>
      intro hp
      have hp' : (b :: t2).Pairwise (fun x y => refLe x y = true) :=
        (List.pairwise_cons.mp hp).2
      by_cases hab : a = b
      · simp only [dedupConsec, if_pos hab]
        exact ih hp'
      · simp only [dedupConsec, if_neg hab]
        refine List.Pairwise.cons ?_ (ih hp')
        intro x hx
        have hxmem : x ∈ b :: t2 := (mem_dedupConsec _ x).mp hx
        have hax : refLe a x = true := List.rel_of_pairwise_cons hp hxmem
        refine ⟨hax, ?_⟩
        intro hxa
        subst hxa
        rcases List.mem_cons.mp hxmem with h | h
        · exact hab h
        · have hba : refLe b a = true := List.rel_of_pairwise_cons hp' h
          have hab' : refLe a b = true := List.rel_of_pairwise_cons hp (List.mem_cons_self _ _)
          exact hab (refLe_antisymm _ _ hab' hba)

/-- The eligible reference list is strictly sorted in the canonical order:
sorted and without duplicates. -/
theorem pairwise_collect_markdown_links (content : List Char) :
    (collect_markdown_links content).Pairwise refLt := by
  unfold collect_markdown_links
  by_cases he : (collectLinksRaw content).isEmpty
  · simp [he]
  · simp only [he, if_false]
    apply List.Pairwise.filter
    apply pairwise_refLt_dedupConsec
    exact pairwise_sortRefs _

/-- Membership in the eligible list: exactly the references some match
produced whose label has no author-written definition. -/
theorem mem_collect_markdown_links {content : List Char} {r : Ref} :
    r ∈ collect_markdown_links content ↔
      (r ∈ collectLinksRaw content ∧ canonicalLabel r ∉ existingLabels content) := by
  unfold collect_markdown_links
  by_cases he : (collectLinksRaw content).isEmpty
  · rw [List.isEmpty_iff] at he
    simp [he]
  · rw [if_neg he]
    simp only [List.mem_filter, mem_dedupConsec, mem_sortRefs, decide_eq_true_eq]

/-- Two strictly sorted lists with the same members are equal: the canonical
order determines the list independently of how its elements were found. -/
theorem eq_of_pairwise_refLt :
    ∀ {l₁ l₂ : List Ref}, l₁.Pairwise refLt → l₂.Pairwise refLt →
      (∀ x, x ∈ l₁ ↔ x ∈ l₂) → l₁ = l₂ := by
  intro l₁
  induction l₁ with
  | nil =>
    intro l₂ _ _ hm
    cases l₂ with
    | nil => rfl
    | cons b t => exact absurd ((hm b).mpr (List.mem_cons_self _ _)) (by simp)
  | cons a t ih =>
    intro l₂ h₁ h₂ hm
    cases l₂ with
    | nil => exact absurd ((hm a).mp (List.mem_cons_self _ _)) (by simp)
    | cons b t2 =>
      have hab : a = b := by
        have ha2 : a ∈ b :: t2 := (hm a).mp (List.mem_cons_self _ _)
        have hb1 : b ∈ a :: t := (hm b).mpr (List.mem_cons_self _ _)
        rcases List.mem_cons.mp ha2 with h | h
        · exact h
        · have hba : refLt b a := List.rel_of_pairwise_cons h₂ h
          rcases List.mem_cons.mp hb1 with h' | h'
          · exact h'.symm
          · have hab' : refLt a b := List.rel_of_pairwise_cons h₁ h'
            exact absurd (refLe_antisymm _ _ hab'.1 hba.1) hab'.2
      subst hab
      have htl : ∀ x, x ∈ t ↔ x ∈ t2 := by
        intro x
        constructor
        · intro hx
          rcases List.mem_cons.mp ((hm x).mp (List.mem_cons_of_mem _ hx)) with h | h
          · exact absurd h.symm (List.rel_of_pairwise_cons h₁ hx).2
          · exact h
        · intro hx
          rcases List.mem_cons.mp ((hm x).mpr (List.mem_cons_of_mem _ hx)) with h | h
          · exact absurd h.symm (List.rel_of_pairwise_cons h₂ hx).2
          · exact h
      rw [ih (List.pairwise_cons.mp h₁).2 (List.pairwise_cons.mp h₂).2 htl]

/-- Unfolding the accumulator of the bullet-line loop. -/
theorem foldl_bulletLine :
    ∀ (links : List Ref) (acc : List Char),
      links.foldl (fun a r => a ++ bulletLine r) acc = acc ++ (links.map bulletLine).flatten := by
  intro links
  induction links with
  | nil => intro acc; simp
  | cons r t ih =>
    intro acc
    simp only [List.foldl_cons, List.map_cons, List.flatten_cons]
    rw [ih]
    simp [List.append_assoc]

set_option maxRecDepth 10000

/-- C2: when there is at least one eligible reference and the resolver
returns a different number of URLs than references, `std_links` fails
with the count-mismatch diagnostic carrying both counts and the document
identity, and produces no rewritten output at all. -/
theorem c2_count_mismatch (specRelative : Option String)
    (resolver : List Ref → List (List Char)) (chapter : Chapter)
    (hne : collect_markdown_links chapter.content ≠ [])
    (hlen : (resolver (collect_markdown_links chapter.content)).length ≠
      (collect_markdown_links chapter.content).length) :
    std_links specRelative resolver chapter =
      Except.error (Err.countMismatch (collect_markdown_links chapter.content).length
        (resolver (collect_markdown_links chapter.content)).length
        chapter.name chapter.sourcePath) := by
  have hne2 : ¬ ((collect_markdown_links chapter.content).isEmpty = true) := by
    rw [List.isEmpty_iff]
    exact hne
  simp only [std_links]
  rw [if_neg hne2, if_pos hlen]

/-- C2 witness: a one-reference chapter with a resolver returning no URLs. -/
theorem c2_witness :
    collect_markdown_links ((" Use [`Option`](std::option::Option) for this. ").toList) ≠ [] ∧
    std_links none (fun _ => [])
      ⟨"c", "x.md", ["x.md"], (" Use [`Option`](std::option::Option) for this. ").toList⟩ =
      Except.error (Err.countMismatch 1 0 ("c") ("x.md")) :=
  ⟨by decide, c2_count_mismatch none _ _ (by decide) (by decide)⟩

/-- C3: when no reference is eligible after scanning and filtering, the
content is returned unchanged whatever the resolver and environment are:
no resolver call, rewriting, or appending can influence the result. -/
theorem c3_no_links_identity (specRelative : Option String)
    (resolver : List Ref → List (List Char)) (chapter : Chapter)
    (h : collect_markdown_links chapter.content = []) :
    std_links specRelative resolver chapter = Except.ok chapter.content := by
  simp only [std_links, h]
  rfl

/-- C3 witness: a chapter with no candidate link at all, and one where the
only matched shorthand already has an author-written definition. -/
theorem c3_witness :
    collect_markdown_links (("hello world").toList) = [] ∧
    std_links none (fun _ => [("u").toList]) ⟨"n", "p", ["p"], ("hello world").toList⟩ =
      Except.ok (("hello world").toList) ∧
    collect_markdown_links (("[`std::fmt`]\n\n[`std::fmt`]: xyz\n").toList) = [] ∧
    std_links none (fun _ => [("u").toList])
      ⟨"n", "p", ["p"], ("[`std::fmt`]\n\n[`std::fmt`]: xyz\n").toList⟩ =
      Except.ok (("[`std::fmt`]\n\n[`std::fmt`]: xyz\n").toList) :=
  ⟨by decide, c3_no_links_identity none _ _ (by decide), by decide,
    c3_no_links_identity none _ _ (by decide)⟩

/-- C4: author intent wins. Every reference the scanner keeps has no
existing definition for its canonical label, and a matched reference
whose canonical label is already defined is never in the eligible list
(so it is neither resolved nor re-defined). -/
theorem c4_author_priority (content : List Char) (r : Ref) :
    (r ∈ collect_markdown_links content → canonicalLabel r ∉ existingLabels content) ∧
    (canonicalLabel r ∈ existingLabels content → r ∉ collect_markdown_links content) := by
  constructor
  · intro h
    exact (mem_collect_markdown_links.mp h).2
  · intro h hmem
    exact (mem_collect_markdown_links.mp hmem).2 h

/-- C4 witness: a shorthand whose label the author defined is dropped. -/
theorem c4_witness :
    canonicalLabel ((("[") ++ "`std::fmt`]").toList, none) ∈
      existingLabels (("[`std::fmt`]\n\n[`std::fmt`]: xyz\n").toList) ∧
    ((("[") ++ "`std::fmt`]").toList, none) ∉
      collect_markdown_links (("[`std::fmt`]\n\n[`std::fmt`]: xyz\n").toList) :=
  ⟨by decide, (c4_author_priority _ _).2 (by decide)⟩

/-- On success the definitions block is the concatenation of exactly one
line per submitted (reference, URL) pair, in list order. -/
theorem buildDefs_ok_map (specRelative : Option String) (ch : Chapter) :
    ∀ (pairs : List (Ref × List Char)) (defs : List Char),
      buildDefs specRelative ch pairs = Except.ok defs →
      defs = (pairs.map (fun p =>
        defLine p.1 ((relative_url specRelative p.2 ch).toOption.getD []))).flatten := by
  intro pairs
  induction pairs with
  | nil =>
    intro defs h
    simp only [buildDefs] at h
    injection h with h
    subst h
    simp
  | cons p t ih =>
    intro defs h
    simp only [buildDefs] at h
    split at h
    · exact absurd h (by simp)
    next u heq =>
      split at h
      · exact absurd h (by simp)
      next tail heq2 =>
        injection h with h
        subst h
        simp only [List.map_cons, List.flatten_cons]
        rw [← ih tail heq2, heq]
        rfl

/-- C5: deduplication and canonical ordering of the definitions block. The
eligible list is strictly sorted (hence duplicate-free); it contains
exactly the distinct matched references without an author definition; it
is unchanged under any reordering of the scanner's matches (given the
same author definitions); and the successful definitions block is the
concatenation of exactly one line per eligible reference, in that order. -/
theorem c5_dedup_sorted_block (content : List Char) :
    (collect_markdown_links content).Pairwise refLt ∧
    (∀ r, r ∈ collect_markdown_links content ↔
      (r ∈ collectLinksRaw content ∧ canonicalLabel r ∉ existingLabels content)) ∧
    (∀ content2, List.Perm (collectLinksRaw content) (collectLinksRaw content2) →
      existingLabels content = existingLabels content2 →
      collect_markdown_links content = collect_markdown_links content2) ∧
    (∀ (specRelative : Option String) (ch : Chapter) (urls : List (List Char))
      (defs : List Char),
      buildDefs specRelative ch ((collect_markdown_links content).zip urls) = Except.ok defs →
      defs = (((collect_markdown_links content).zip urls).map (fun p =>
        defLine p.1 ((relative_url specRelative p.2 ch).toOption.getD []))).flatten) := by
  refine ⟨pairwise_collect_markdown_links content, fun r => mem_collect_markdown_links, ?_, ?_⟩
  · intro c2 hperm hlab
    apply eq_of_pairwise_refLt (pairwise_collect_markdown_links content)
      (pairwise_collect_markdown_links c2)
    intro x
    rw [mem_collect_markdown_links, mem_collect_markdown_links, hlab]
    exact and_congr_left (fun _ => hperm.mem_iff)
  · intro sr ch urls defs h
    exact buildDefs_ok_map sr ch _ defs h

/-- C5 witness: two contents with the same two references in swapped
occurrence order give the same sorted eligible list, and the block for it
is one line per reference. -/
theorem c5_witness :
    List.Perm (collectLinksRaw (("a [`core::fmt`] b [`std::fmt`]").toList))
      (collectLinksRaw (("x [`std::fmt`] y [`core::fmt`]").toList)) ∧
    existingLabels (("a [`core::fmt`] b [`std::fmt`]").toList) =
      existingLabels (("x [`std::fmt`] y [`core::fmt`]").toList) ∧
    collect_markdown_links (("a [`core::fmt`] b [`std::fmt`]").toList) =
      collect_markdown_links (("x [`std::fmt`] y [`core::fmt`]").toList) ∧
    buildDefs none ⟨"c", "p", ["p"], []⟩
      ((collect_markdown_links (("a [`core::fmt`] b [`std::fmt`]").toList)).zip
        [("https://doc.rust-lang.org/stable/core/fmt/index.html").toList,
         ("https://doc.rust-lang.org/stable/std/fmt/index.html").toList]) =
      Except.ok (("[`core::fmt`]: ../core/fmt/index.html\n[`std::fmt`]: ../std/fmt/index.html\n").toList) ∧
    (("[`core::fmt`]: ../core/fmt/index.html\n[`std::fmt`]: ../std/fmt/index.html\n").toList) =
      (((collect_markdown_links (("a [`core::fmt`] b [`std::fmt`]").toList)).zip
        [("https://doc.rust-lang.org/stable/core/fmt/index.html").toList,
         ("https://doc.rust-lang.org/stable/std/fmt/index.html").toList]).map (fun p =>
        defLine p.1 ((relative_url none p.2 ⟨"c", "p", ["p"], []⟩).toOption.getD []))).flatten := by
  have hperm : List.Perm (collectLinksRaw (("a [`core::fmt`] b [`std::fmt`]").toList))
      (collectLinksRaw (("x [`std::fmt`] y [`core::fmt`]").toList)) := by
    have h1 : collectLinksRaw (("a [`core::fmt`] b [`std::fmt`]").toList) =
        [((("[`core::fmt`]").toList), none), ((("[`std::fmt`]").toList), none)] := by decide
    have h2 : collectLinksRaw (("x [`std::fmt`] y [`core::fmt`]").toList) =
        [((("[`std::fmt`]").toList), none), ((("[`core::fmt`]").toList), none)] := by decide
    rw [h1, h2]
    exact List.Perm.swap _ _ _
  refine ⟨hperm, by decide, ?_, rfl, ?_⟩
  · exact (c5_dedup_sorted_block _).2.2.1 _ hperm (by decide)
  · exact (c5_dedup_sorted_block _).2.2.2 none ⟨"c", "p", ["p"], []⟩ _ _ rfl

/-- C6: with relativization enabled, a URL whose start DOC_URL matches is
rewritten to one parent-directory marker per chapter path component,
joined by slashes, followed by the URL with the (shortest) matched prefix
stripped; a URL DOC_URL does not match is a fatal error showing the
expected pattern and the offending URL. -/
theorem c6_relativize (specRelative : Option String) (url : List Char) (chapter : Chapter)
    (henv : specRelative ≠ some ("0")) :
    (∀ n, shortestMatchEnd DOC_URL url = some n →
      relative_url specRelative url chapter =
        Except.ok (joinSep ([ '/' ]) (List.replicate chapter.path.length ([ '.', '.' ])) ++
          url.drop n)) ∧
    (shortestMatchEnd DOC_URL url = none →
      relative_url specRelative url chapter = Except.error (Err.badUrl docUrlPatternStr url)) := by
  constructor
  · intro n hn
    unfold relative_url
    rw [if_pos henv, hn]
  · intro hn
    unfold relative_url
    rw [if_pos henv, hn]

/-- C6 witness: a depth-one chapter, one recognized URL and one
unrecognized URL. -/
theorem c6_witness :
    ((none : Option String) ≠ some ("0")) ∧
    shortestMatchEnd DOC_URL
      (("https://doc.rust-lang.org/stable/std/option/enum.Option.html").toList) = some 32 ∧
    relative_url none (("https://doc.rust-lang.org/stable/std/option/enum.Option.html").toList)
      ⟨"c", "x.md", ["x.md"], []⟩ =
      Except.ok (joinSep ([ '/' ]) (List.replicate 1 ([ '.', '.' ])) ++
        (("https://doc.rust-lang.org/stable/std/option/enum.Option.html").toList).drop 32) ∧
    shortestMatchEnd DOC_URL (("https://example.com/foo").toList) = none ∧
    relative_url none (("https://example.com/foo").toList) ⟨"c", "x.md", ["x.md"], []⟩ =
      Except.error (Err.badUrl docUrlPatternStr (("https://example.com/foo").toList)) :=
  ⟨by decide, by decide,
    (c6_relativize none _ ⟨"c", "x.md", ["x.md"], []⟩ (by decide)).1 32 (by decide),
    by decide,
    (c6_relativize none _ ⟨"c", "x.md", ["x.md"], []⟩ (by decide)).2 (by decide)⟩

/-- C7: a toggle value of "0" disables relativization and the URL is
returned unchanged; any other value, or an unset variable, behaves
exactly like the unset (enabled) case. -/
theorem c7_toggle (url : List Char) (chapter : Chapter) :
    relative_url (some ("0")) url chapter = Except.ok url ∧
    (∀ specRelative, specRelative ≠ some ("0") →
      relative_url specRelative url chapter = relative_url none url chapter) := by
  constructor
  · unfold relative_url
    rw [if_neg (by simp)]
  · intro sr hsr
    unfold relative_url
    rw [if_pos hsr, if_pos (by simp)]

/-- C7 witness: the toggle at "0", at another value, and unset. -/
theorem c7_witness :
    relative_url (some ("0"))
      (("https://doc.rust-lang.org/stable/std/option/enum.Option.html").toList)
      ⟨"c", "x.md", ["x.md"], []⟩ =
      Except.ok (("https://doc.rust-lang.org/stable/std/option/enum.Option.html").toList) ∧
    ((some ("1") : Option String) ≠ some ("0")) ∧
    relative_url (some ("1"))
      (("https://doc.rust-lang.org/stable/std/option/enum.Option.html").toList)
      ⟨"c", "x.md", ["x.md"], []⟩ =
      relative_url none (("https://doc.rust-lang.org/stable/std/option/enum.Option.html").toList)
      ⟨"c", "x.md", ["x.md"], []⟩ :=
  ⟨(c7_toggle _ _).1, by decide, (c7_toggle _ ⟨"c", "x.md", ["x.md"], []⟩).2 (some ("1")) (by decide)⟩

/-- C8: the synthesized rustdoc source is exactly the fixed header (strict
broken-link diagnostics on, redundancy lint off), then one doc-comment
bullet line per reference in input order — the display text followed by
the destination in trailing parentheses when present — then the trailing
extern-crate declarations; the bullet lines are in one-to-one
order-preserving correspondence with the input references, which is what
makes positional zipping with the extracted URLs valid. -/
theorem c8_rustdoc_source (links : List Ref) :
    run_rustdoc_src links =
      rustdocHeader ++ (links.map bulletLine).flatten ++ rustdocFooter ∧
    (links.map bulletLine).length = links.length := by
  constructor
  · unfold run_rustdoc_src
    rw [foldl_bulletLine]
  · simp

/-- C9: the emitted definition for a reference with an explicit destination
is labelled with the destination in plain brackets, while the scanner's
exclusion filter checks the backticked form; the two labels always
differ, so a document holding the tool's own emitted definition line does
not suppress that reference (shown concretely in the last conjuncts). -/
theorem c9_label_mismatch :
    (∀ (l d url : List Char),
      defLine (l, some d) url = '[' :: (d ++ ("]: ".toList) ++ url ++ [ '\n' ]) ∧
      canonicalLabel (l, some d) = '[' :: bq :: (d ++ [ bq, ']' ]) ∧
      '[' :: (d ++ [ ']' ]) ≠ '[' :: bq :: (d ++ [ bq, ']' ])) ∧
    existingLabels (("[`Option`](std::option::Option)\n\n[std::option::Option]: x\n").toList) =
      [(("[std::option::Option]").toList)] ∧
    collect_markdown_links
      (("[`Option`](std::option::Option)\n\n[std::option::Option]: x\n").toList) =
      [((("[`Option`]").toList), some (("std::option::Option").toList))] := by
  refine ⟨?_, by decide, by decide⟩
  intro l d url
  refine ⟨by simp [defLine], rfl, ?_⟩
  intro h
  have hlen := congrArg List.length h
  simp [List.length_append] at hlen

/-- C10: frame property of a completed rewrite. The original content
decomposes into segments — untouched characters and grammar matches — in
order; the output is the same segments with matches replaced by the
closure's output (a shorthand match, with no group 2, is reproduced
verbatim), followed by everything appended strictly after the end of the
original content: a newline and the definitions block. -/
theorem c10_frame (specRelative : Option String) (resolver : List Ref → List (List Char))
    (chapter : Chapter) (out : List Char)
    (hok : std_links specRelative resolver chapter = Except.ok out)
    (hne : collect_markdown_links chapter.content ≠ []) :
    ∃ (segs : List Seg) (defs : List Char),
      chapter.content = (segs.map segIn).flatten ∧
      out = (segs.map segOut).flatten ++ ('\n' :: defs) ∧
      (∀ w caps, Seg.rew w caps ∈ segs →
        ∃ tail, (STD_LINK_RE (w ++ tail)).head? = some (tail, caps)) ∧
      (∀ w caps, Seg.rew w caps ∈ segs → caps.lookup 2 = none →
        segOut (Seg.rew w caps) = w) := by
  have hne2 : ¬ ((collect_markdown_links chapter.content).isEmpty = true) := by
    rw [List.isEmpty_iff]
    exact hne
  simp only [std_links] at hok
  rw [if_neg hne2] at hok
  by_cases hlen : (resolver (collect_markdown_links chapter.content)).length ≠
      (collect_markdown_links chapter.content).length
  · rw [if_pos hlen] at hok
    exact absurd hok (by simp)
  · rw [if_neg hlen] at hok
    split at hok
    · exact absurd hok (by simp)
    next defs heq =>
      injection hok with hout
      refine ⟨stdScan chapter.content, defs, (stdScan_flatten _).symm, ?_, ?_, ?_⟩
      · rw [← hout]
        rfl
      · intro w caps h
        exact stdScan_rew _ h
      · intro w caps _ h2
        simp [segOut, stdReplacement, h2]

/-- C10 witness: the frame decomposition on a concrete processed chapter. -/
theorem c10_witness :
    std_links none
      (fun _ => [("https://doc.rust-lang.org/stable/std/option/enum.Option.html").toList])
      ⟨"c", "x.md", ["x.md"], (" Use [`Option`](std::option::Option) for this. ").toList⟩ =
      Except.ok ((" Use [`Option`][std::option::Option] for this. \n[std::option::Option]: ../std/option/enum.Option.html\n").toList) ∧
    collect_markdown_links ((" Use [`Option`](std::option::Option) for this. ").toList) ≠ [] ∧
    (∃ (segs : List Seg) (defs : List Char),
      (" Use [`Option`](std::option::Option) for this. ").toList = (segs.map segIn).flatten ∧
      (" Use [`Option`][std::option::Option] for this. \n[std::option::Option]: ../std/option/enum.Option.html\n").toList =
        (segs.map segOut).flatten ++ ('\n' :: defs) ∧
      (∀ w caps, Seg.rew w caps ∈ segs →
        ∃ tail, (STD_LINK_RE (w ++ tail)).head? = some (tail, caps)) ∧
      (∀ w caps, Seg.rew w caps ∈ segs → caps.lookup 2 = none →
        segOut (Seg.rew w caps) = w)) :=
  ⟨rfl, by decide,
    c10_frame none
      (fun _ => [("https://doc.rust-lang.org/stable/std/option/enum.Option.html").toList])
      ⟨"c", "x.md", ["x.md"], (" Use [`Option`](std::option::Option) for this. ").toList⟩
      _ rfl (by decide)⟩

/-- C1 as stated is false on the code: with the resolver returning exactly
`https://doc.rust-lang.org/stable/std/option/enum.Option.html` and a
depth-one document, `shortest_match` strips the channel segment together
with the host, so the emitted definition points at
`../std/option/enum.Option.html`; the claimed trailing line with
`../stable/std/option/enum.Option.html` appears nowhere in the output. -/
theorem c1_counterexample :
    std_links none
      (fun _ => [("https://doc.rust-lang.org/stable/std/option/enum.Option.html").toList])
      ⟨"c", "x.md", ["x.md"], (" Use [`Option`](std::option::Option) for this. ").toList⟩ =
      Except.ok ((" Use [`Option`][std::option::Option] for this. \n[std::option::Option]: ../std/option/enum.Option.html\n").toList) ∧
    ¬ ((("[std::option::Option]: ../stable/std/option/enum.Option.html").toList) <:+:
      ((" Use [`Option`][std::option::Option] for this. \n[std::option::Option]: ../std/option/enum.Option.html\n").toList)) :=
  ⟨rfl, by decide⟩

/-- C1 amended: same setup, but the trailing definition line strips the
channel: the output contains the rewritten sentence and ends with the
line mapping the label to `../std/option/enum.Option.html`. -/
theorem c1_amended :
    std_links none
      (fun _ => [("https://doc.rust-lang.org/stable/std/option/enum.Option.html").toList])
      ⟨"c", "x.md", ["x.md"], (" Use [`Option`](std::option::Option) for this. ").toList⟩ =
      Except.ok ((" Use [`Option`][std::option::Option] for this. \n[std::option::Option]: ../std/option/enum.Option.html\n").toList) ∧
    ((" Use [`Option`][std::option::Option] for this. ").toList) <:+:
      ((" Use [`Option`][std::option::Option] for this. \n[std::option::Option]: ../std/option/enum.Option.html\n").toList) ∧
    (("[std::option::Option]: ../std/option/enum.Option.html\n").toList) <:+
      ((" Use [`Option`][std::option::Option] for this. \n[std::option::Option]: ../std/option/enum.Option.html\n").toList) :=
  ⟨rfl, by decide, by decide⟩
